import Mathlib

/-!
Verification of the shape-similarity engine of the InShape repository
(`ACM/backend/algorithm.py` and `ACM/backend/procrustes_shape_grader.py`).

Occupancy grids are embedded as flattened boolean lists (one entry per grid
cell), matching the numpy boolean arrays of the source; real-valued
computation is embedded over `ℚ` where the source only uses field
operations, and over `ℝ` where square roots or trigonometry appear.
-/

namespace InShape

/-! ## Occupancy grids and overlap scores (`algorithm.py`) -/

/-- An occupancy grid, flattened to one boolean per cell
(`np.ndarray` of dtype bool in the source). -/
abbrev Mask := List Bool

/-- `np.logical_and(a, b).sum()`: the number of cells set in both masks. -/
def andCount (a b : Mask) : ℕ :=
  (List.zipWith (fun x y => x && y) a b).count true

/-- `np.logical_or(a, b).sum()`: the number of cells set in either mask. -/
def orCount (a b : Mask) : ℕ :=
  (List.zipWith (fun x y => x || y) a b).count true

/-- `iou` from `algorithm.py`:
`inter / union` when the union is positive, else `0.0`. -/
def iou (mask_a mask_b : Mask) : ℚ :=
  let inter := andCount mask_a mask_b
  let union := orCount mask_a mask_b
  if 0 < union then (inter : ℚ) / (union : ℚ) else 0

/-- `region_signed_score` from `algorithm.py`:
overlap minus `1.0 ×` missing minus `0.3 ×` extra, divided by the target
area and expressed as a percentage; `0.0` when the target mask is empty. -/
def region_signed_score (mask_gps_poly mask_target : Mask) : ℚ :=
  let overlap_area := (List.zipWith (fun g t => g && t) mask_gps_poly mask_target).count true
  let missing_mask_area := (List.zipWith (fun g t => t && !g) mask_gps_poly mask_target).count true
  let extra_route_area := (List.zipWith (fun g t => g && !t) mask_gps_poly mask_target).count true
  let total_mask_area := mask_target.count true
  if total_mask_area = 0 then 0
  else
    let raw_score : ℚ := (overlap_area : ℚ) - 1 * (missing_mask_area : ℚ) - (3 / 10) * (extra_route_area : ℚ)
    raw_score / (total_mask_area : ℚ) * 100

/-- `np.clip(x, lo, hi)`. -/
def npClip (x lo hi : ℚ) : ℚ := min (max x lo) hi

/-- Round-half-to-even on `ℚ`, the rounding rule of `np.round`. -/
def roundHalfEven (x : ℚ) : ℤ :=
  let f := Int.floor x
  let r := x - (f : ℚ)
  if r < 1 / 2 then f
  else if 1 / 2 < r then f + 1
  else if 2 ∣ f then f else f + 1

/-- `np.round(x, 1)`: round to one decimal digit, half to even. -/
def npRound1 (x : ℚ) : ℚ := (roundHalfEven (x * 10) : ℚ) / 10

/-- The `region_signed_pct` field of the result dictionary of
`best_overlap_iou`: `round(np.clip(signed_score, -1.0, 1.0) * 100, 1)`
where `signed_score = region_signed_score(gps_mask_poly, tgt_mask)`. -/
def region_signed_pct (mask_gps_poly mask_target : Mask) : ℚ :=
  npRound1 (npClip (region_signed_score mask_gps_poly mask_target) (-1) 1 * 100)

/-! ## Normalization (`center_and_scale` in `algorithm.py`) -/

/-- `np.mean(points, axis=0)`: the centroid of a point list. -/
def centroid (points : List (ℚ × ℚ)) : ℚ × ℚ :=
  ((points.map Prod.fst).sum / (points.length : ℚ),
   (points.map Prod.snd).sum / (points.length : ℚ))

/-- `points - centroid`: recenter a point list at the origin. -/
def centerPts (points : List (ℚ × ℚ)) : List (ℚ × ℚ) :=
  let c := centroid points
  points.map (fun p => (p.1 - c.1, p.2 - c.2))

/-- `np.max(np.abs(centered))`: the largest absolute coordinate over both
axes.  All entries are nonnegative, so folding `max` from `0` agrees with
`np.max` on every nonempty list. -/
def maxAbsCoord (points : List (ℚ × ℚ)) : ℚ :=
  (points.map (fun p => max |p.1| |p.2|)).foldr max 0

/-- `center_and_scale` from `algorithm.py`: recenter at the origin, and
when the spread is positive scale both axes by the single scalar
`0.85 / max_dim`, then subtract the (exactly zero) centroid of the scaled
points; fewer than 2 points raise `ValueError`. -/
def center_and_scale (points : List (ℚ × ℚ)) : Except String (List (ℚ × ℚ)) :=
  if points.length < 2 then .error "Need at least 2 points to normalize."
  else
    let centered := centerPts points
    let max_dim := maxAbsCoord centered
    if max_dim ≤ 0 then .ok centered
    else
      let scaled := centered.map (fun p => (p.1 / max_dim * (17 / 20), p.2 / max_dim * (17 / 20)))
      let fc := centroid scaled
      .ok (scaled.map (fun p => (p.1 - fc.1, p.2 - fc.2)))

/-! ## Helper lemmas on boolean-grid counts -/

lemma count_zipWith_eq_length_filter (f : Bool → Bool → Bool) (a b : List Bool) :
    (List.zipWith f a b).count true = ((a.zip b).filter (fun p => f p.1 p.2)).length := by
  induction a generalizing b with
  | nil => simp
  | cons x a ih =>
    cases b with
    | nil => simp
    | cons y b =>
      simp only [List.zipWith_cons_cons, List.zip_cons_cons, List.count_cons, List.filter_cons]
      cases h : f x y <;> simp [h, ih]

lemma andCount_le_orCount (a b : Mask) : andCount a b ≤ orCount a b := by
  unfold andCount orCount
  induction a generalizing b with
  | nil => simp
  | cons x a ih =>
    cases b with
    | nil => simp
    | cons y b =>
      simp only [List.zipWith_cons_cons, List.count_cons]
      have := ih b
      cases x <;> cases y <;> simp <;> omega

lemma filter_inter_add_missing (g t : List Bool) (h : g.length = t.length) :
    ((g.zip t).filter (fun p => p.1 && p.2)).length
      + ((g.zip t).filter (fun p => p.2 && !p.1)).length = t.count true := by
  induction g generalizing t with
  | nil =>
    cases t with
    | nil => simp
    | cons y t => simp at h
  | cons x g ih =>
    cases t with
    | nil => simp at h
    | cons y t =>
      simp only [List.length_cons, Nat.succ_inj] at h
      have ht := ih t h
      simp only [List.zip_cons_cons, List.filter_cons, List.count_cons]
      cases x <;> cases y <;> simp <;> omega

lemma filter_inter_add_extra (g t : List Bool) (h : g.length = t.length) :
    ((g.zip t).filter (fun p => p.1 && p.2)).length
      + ((g.zip t).filter (fun p => p.1 && !p.2)).length = g.count true := by
  induction g generalizing t with
  | nil => simp
  | cons x g ih =>
    cases t with
    | nil => simp at h
    | cons y t =>
      simp only [List.length_cons, Nat.succ_inj] at h
      have ht := ih t h
      simp only [List.zip_cons_cons, List.filter_cons, List.count_cons]
      cases x <;> cases y <;> simp <;> omega

/-! ## Claim theorems about the overlap scorer -/

/-- Claim C4: for equal-size candidate and target grids,
`region_signed_score` returns
`((intersection − 1·missing − 0.3·extra) / |target|) · 100`, where
intersection, missing and extra are the three disjoint cell counts (they
partition the target cells and the candidate cells respectively), and it
returns `0` when the target mask is empty. -/
theorem region_signed_score_spec (g t : Mask) (h : g.length = t.length) :
    (t.count true = 0 → region_signed_score g t = 0) ∧
    (t.count true ≠ 0 →
      region_signed_score g t =
        ((((g.zip t).filter (fun p => p.1 && p.2)).length : ℚ)
          - 1 * (((g.zip t).filter (fun p => p.2 && !p.1)).length : ℚ)
          - (3 / 10) * (((g.zip t).filter (fun p => p.1 && !p.2)).length : ℚ))
          / (t.count true : ℚ) * 100) ∧
    ((g.zip t).filter (fun p => p.1 && p.2)).length
      + ((g.zip t).filter (fun p => p.2 && !p.1)).length = t.count true ∧
    ((g.zip t).filter (fun p => p.1 && p.2)).length
      + ((g.zip t).filter (fun p => p.1 && !p.2)).length = g.count true := by
  refine ⟨?_, ?_, filter_inter_add_missing g t h, filter_inter_add_extra g t h⟩
  · intro h0
    simp [region_signed_score, h0]
  · intro h0
    simp only [region_signed_score, if_neg h0]
    rw [count_zipWith_eq_length_filter (fun x y => x && y),
        count_zipWith_eq_length_filter (fun x y => y && !x),
        count_zipWith_eq_length_filter (fun x y => x && !y)]

/-- Witness for C4 at a concrete pair of equal-size grids. -/
theorem region_signed_score_spec_witness :
    ([true, true, true] : Mask).length = ([true, true, false] : Mask).length ∧
    (([true, true, false] : Mask).count true ≠ 0 →
      region_signed_score [true, true, true] [true, true, false] =
        (((([true, true, true] : Mask).zip [true, true, false]).filter (fun p => p.1 && p.2)).length
          - 1 * ((((([true, true, true] : Mask)).zip [true, true, false]).filter (fun p => p.2 && !p.1)).length : ℚ)
          - (3 / 10) * ((((([true, true, true] : Mask)).zip [true, true, false]).filter (fun p => p.1 && !p.2)).length : ℚ))
          / ((([true, true, false] : Mask).count true : ℚ)) * 100) :=
  ⟨by decide, (region_signed_score_spec [true, true, true] [true, true, false] (by decide)).2.1⟩

/-- Claim C8: `iou` is intersection over union, `0` on an empty union,
always lies in `[0, 1]`, and equals `1` on any non-empty mask against
itself. -/
theorem iou_spec (a b m : Mask) (hab : a.length = b.length) :
    (0 < ((a.zip b).filter (fun p => p.1 || p.2)).length →
      iou a b = ((((a.zip b).filter (fun p => p.1 && p.2)).length : ℚ)
        / (((a.zip b).filter (fun p => p.1 || p.2)).length : ℚ))) ∧
    (((a.zip b).filter (fun p => p.1 || p.2)).length = 0 → iou a b = 0) ∧
    0 ≤ iou a b ∧ iou a b ≤ 1 ∧
    (m.count true ≠ 0 → iou m m = 1) := by
  have hand : andCount a b = ((a.zip b).filter (fun p => p.1 && p.2)).length :=
    count_zipWith_eq_length_filter (fun x y => x && y) a b
  have hor : orCount a b = ((a.zip b).filter (fun p => p.1 || p.2)).length :=
    count_zipWith_eq_length_filter (fun x y => x || y) a b
  have hle := andCount_le_orCount a b
  refine ⟨?_, ?_, ?_, ?_, ?_⟩
  · intro hpos
    rw [iou]
    rw [if_pos (by rw [hor]; exact hpos)]
    rw [hand, hor]
  · intro h0
    rw [iou]
    rw [if_neg (by rw [hor, h0]; exact lt_irrefl 0)]
  · rw [iou]
    split
    · positivity
    · exact le_rfl
  · rw [iou]
    split
    · rename_i hpos
      rw [div_le_one (by exact_mod_cast hpos)]
      exact_mod_cast hle
    · norm_num
  · intro hm
    have hzand : List.zipWith (fun x y => x && y) m m = m := by
      rw [List.zipWith_same]
      simp
    have hzor : List.zipWith (fun x y => x || y) m m = m := by
      rw [List.zipWith_same]
      simp
    simp only [iou, andCount, orCount, hzand, hzor]
    rw [if_pos (Nat.pos_of_ne_zero hm)]
    rw [div_self (by exact_mod_cast hm)]

/-- Witness for C8 at a concrete pair of equal-size grids. -/
theorem iou_spec_witness :
    ([true, false] : Mask).length = ([true, true] : Mask).length ∧
    0 ≤ iou [true, false] [true, true] ∧ iou [true, false] [true, true] ≤ 1 :=
  ⟨by decide, (iou_spec [true, false] [true, true] [true] (by decide)).2.2.1,
    (iou_spec [true, false] [true, true] [true] (by decide)).2.2.2.1⟩

/-- Claim C1 (code bug): `best_overlap_iou` reports
`round(np.clip(signed_score, -1.0, 1.0) * 100, 1)`, clipping the already
percentage-valued `region_signed_score` to `[-1, 1]` before rescaling by
100, so a score of 85 percent is reported as 100 rather than the clamped
value `max(-100, min(100, 85)) = 85` the claim states. -/
theorem region_signed_pct_saturates :
    region_signed_score [true, true, true] [true, true, false] = 85 ∧
    region_signed_pct [true, true, true] [true, true, false] = 100 ∧
    max (-100) (min 100 (region_signed_score [true, true, true] [true, true, false])) = 85 ∧
    (100 : ℚ) ≠ 85 := by
  have hs : region_signed_score [true, true, true] [true, true, false] = 85 := by
    norm_num [region_signed_score]
  refine ⟨hs, ?_, ?_, by norm_num⟩
  · norm_num [region_signed_pct, hs, npClip, npRound1, roundHalfEven]
  · rw [hs]; norm_num

/-! ## Helper lemmas for the normalizer -/

lemma sum_map_sub_const (l : List ℚ) (c : ℚ) :
    (l.map (fun x => x - c)).sum = l.sum - l.length * c := by
  induction l with
  | nil => simp
  | cons x t ih => simp [ih]; ring

lemma sum_map_div_mul (l : List ℚ) (m c : ℚ) :
    (l.map (fun x => x / m * c)).sum = l.sum / m * c := by
  induction l with
  | nil => simp
  | cons x t ih => simp [ih]; ring

lemma fst_centerPts (l : List (ℚ × ℚ)) :
    (centerPts l).map Prod.fst = (l.map Prod.fst).map (fun x => x - (centroid l).1) := by
  simp [centerPts, List.map_map, Function.comp]

lemma snd_centerPts (l : List (ℚ × ℚ)) :
    (centerPts l).map Prod.snd = (l.map Prod.snd).map (fun x => x - (centroid l).2) := by
  simp [centerPts, List.map_map, Function.comp]

lemma sum_centerPts (l : List (ℚ × ℚ)) (hl : l ≠ []) :
    ((centerPts l).map Prod.fst).sum = 0 ∧ ((centerPts l).map Prod.snd).sum = 0 := by
  have hn : (l.length : ℚ) ≠ 0 :=
    Nat.cast_ne_zero.mpr (List.length_pos.mpr hl).ne'
  constructor
  · rw [fst_centerPts, sum_map_sub_const]
    simp only [centroid, List.length_map]
    field_simp
  · rw [snd_centerPts, sum_map_sub_const]
    simp only [centroid, List.length_map]
    field_simp

lemma centroid_centerPts (l : List (ℚ × ℚ)) (hl : l ≠ []) :
    centroid (centerPts l) = (0, 0) := by
  obtain ⟨h1, h2⟩ := sum_centerPts l hl
  simp [centroid, h1, h2]

lemma sum_map_const_pt (l : List (ℚ × ℚ)) (q : ℚ × ℚ) (hall : ∀ p ∈ l, p = q) :
    (l.map Prod.fst).sum = l.length * q.1 ∧ (l.map Prod.snd).sum = l.length * q.2 := by
  induction l with
  | nil => simp
  | cons x t ih =>
    have hx : x = q := hall x (List.mem_cons_self x t)
    have ht := ih (fun p hp => hall p (List.mem_cons_of_mem x hp))
    simp [hx, ht.1, ht.2]
    constructor <;> ring

lemma centroid_const (l : List (ℚ × ℚ)) (q : ℚ × ℚ) (hl : l ≠ [])
    (hall : ∀ p ∈ l, p = q) : centroid l = q := by
  have hn : (l.length : ℚ) ≠ 0 :=
    Nat.cast_ne_zero.mpr (List.length_pos.mpr hl).ne'
  obtain ⟨h1, h2⟩ := sum_map_const_pt l q hall
  simp only [centroid, h1, h2]
  rw [mul_comm (l.length : ℚ) q.1, mul_comm (l.length : ℚ) q.2,
      mul_div_assoc, mul_div_assoc, div_self hn, mul_one, mul_one]

lemma maxAbsCoord_nonneg (l : List (ℚ × ℚ)) : 0 ≤ maxAbsCoord l := by
  induction l with
  | nil => simp [maxAbsCoord]
  | cons p t ih =>
    simp only [maxAbsCoord, List.map_cons, List.foldr_cons] at *
    exact le_trans ih (le_max_right _ _)

lemma maxAbsCoord_zero_of_all_zero (l : List (ℚ × ℚ)) (hall : ∀ p ∈ l, p = (0, 0)) :
    maxAbsCoord l = 0 := by
  induction l with
  | nil => simp [maxAbsCoord]
  | cons p t ih =>
    have hp : p = ((0 : ℚ), (0 : ℚ)) := hall p (List.mem_cons_self p t)
    have ht := ih (fun x hx => hall x (List.mem_cons_of_mem p hx))
    simp only [maxAbsCoord, List.map_cons, List.foldr_cons] at *
    simp [hp, ht]

lemma maxAbsCoord_scale (l : List (ℚ × ℚ)) (k : ℚ) (hk : 0 ≤ k) :
    maxAbsCoord (l.map (fun p => (p.1 * k, p.2 * k))) = maxAbsCoord l * k := by
  induction l with
  | nil => simp [maxAbsCoord]
  | cons p t ih =>
    simp only [maxAbsCoord, List.map_cons, List.foldr_cons, List.map_map] at *
    rw [ih]
    rw [max_mul_of_nonneg _ _ hk, max_mul_of_nonneg _ _ hk]
    rw [abs_mul, abs_mul, abs_of_nonneg hk]

/-- Claim C5: `center_and_scale` succeeds on any input of at least 2
points, returns a sequence with centroid exactly at the origin; when the
spread is positive a single positive scalar divides both axes and the
maximum absolute coordinate of the result is exactly `0.85 = 17/20`; when
all points coincide the centered-but-unscaled sequence is returned. -/
theorem center_and_scale_spec (points : List (ℚ × ℚ)) (h : 2 ≤ points.length) :
    ∃ res, center_and_scale points = .ok res ∧
      centroid res = (0, 0) ∧
      (0 < maxAbsCoord (centerPts points) →
        (∃ s : ℚ, 0 < s ∧ res = (centerPts points).map (fun p => (p.1 / s, p.2 / s))) ∧
        maxAbsCoord res = 17 / 20) ∧
      ((∀ p ∈ points, ∀ q ∈ points, p = q) → res = centerPts points) := by
  have hne : points ≠ [] := by
    intro hnil
    rw [hnil] at h
    simp at h
  have hlen : ¬ points.length < 2 := not_lt.mpr h
  have hcne : centerPts points ≠ [] := by
    simp only [centerPts, ne_eq, List.map_eq_nil_iff]
    exact hne
  have hsum := sum_centerPts points hne
  by_cases hm : maxAbsCoord (centerPts points) ≤ 0
  · -- degenerate branch: zero spread, return the centered sequence
    refine ⟨centerPts points, ?_, centroid_centerPts points hne, ?_, fun _ => rfl⟩
    · simp only [center_and_scale]
      rw [if_neg hlen, if_pos hm]
    · intro hpos
      exact absurd hpos (not_lt.mpr hm)
  · have hpos : 0 < maxAbsCoord (centerPts points) := lt_of_not_le hm
    set m := maxAbsCoord (centerPts points) with hmdef
    have hmne : m ≠ 0 := ne_of_gt hpos
    set scaled := (centerPts points).map (fun p => (p.1 / m * (17 / 20), p.2 / m * (17 / 20)))
      with hscaleddef
    have hfun : (fun p : ℚ × ℚ => (p.1 / m * (17 / 20), p.2 / m * (17 / 20)))
        = (fun p : ℚ × ℚ => (p.1 * (17 / 20 / m), p.2 * (17 / 20 / m))) := by
      funext p
      simp only [Prod.mk.injEq]
      constructor <;> ring
    have hsumsc : (scaled.map Prod.fst).sum = 0 ∧ (scaled.map Prod.snd).sum = 0 := by
      rw [hscaleddef]
      constructor
      · rw [List.map_map]
        have : (Prod.fst ∘ fun p : ℚ × ℚ => (p.1 / m * (17 / 20), p.2 / m * (17 / 20)))
            = (fun p : ℚ × ℚ => p.1 / m * (17 / 20)) := rfl
        rw [this]
        have : (fun p : ℚ × ℚ => p.1 / m * (17 / 20))
            = (fun x => x / m * (17 / 20)) ∘ Prod.fst := rfl
        rw [this, ← List.map_map, sum_map_div_mul, hsum.1]
        simp
      · rw [List.map_map]
        have : (Prod.snd ∘ fun p : ℚ × ℚ => (p.1 / m * (17 / 20), p.2 / m * (17 / 20)))
            = (fun x => x / m * (17 / 20)) ∘ Prod.snd := rfl
        rw [this, ← List.map_map, sum_map_div_mul, hsum.2]
        simp
    have hfc : centroid scaled = (0, 0) := by
      simp [centroid, hsumsc.1, hsumsc.2]
    have hmapz : ∀ l : List (ℚ × ℚ), l.map (fun p => (p.1 - 0, p.2 - 0)) = l := by
      intro l
      induction l with
      | nil => simp
      | cons p t ih => simp [ih]
    have hokres : center_and_scale points = .ok scaled := by
      simp only [center_and_scale]
      rw [if_neg hlen, if_neg hm, hfc]
      rw [hscaleddef]
      exact congrArg Except.ok (hmapz _)
    refine ⟨scaled, hokres, hfc, ?_, ?_⟩
    · intro _
      constructor
      · refine ⟨m / (17 / 20), by positivity, ?_⟩
        rw [hscaleddef]
        congr 1
        funext p
        simp only [Prod.mk.injEq]
        constructor <;> rw [div_div_eq_mul_div, div_mul_eq_mul_div]
      · rw [hscaleddef, hfun, maxAbsCoord_scale _ _ (by positivity)]
        rw [← hmdef]
        field_simp
        ring
    · intro hall
      exfalso
      obtain ⟨q, hq⟩ : ∃ q, ∀ p ∈ points, p = q := by
        obtain ⟨x, t, rfl⟩ := List.exists_cons_of_ne_nil hne
        exact ⟨x, fun p hp => hall p hp x (List.mem_cons_self x t)⟩
      have hc : centroid points = q := centroid_const points q hne hq
      have hz : ∀ p ∈ centerPts points, p = ((0 : ℚ), (0 : ℚ)) := by
        intro p hp
        simp only [centerPts, List.mem_map] at hp
        obtain ⟨r, hr, rfl⟩ := hp
        rw [hc, hq r hr]
        simp
      rw [hmdef] at hpos
      rw [maxAbsCoord_zero_of_all_zero _ hz] at hpos
      exact lt_irrefl 0 hpos

/-- Witness for C5 at a concrete two-point input. -/
theorem center_and_scale_spec_witness :
    2 ≤ ([((0 : ℚ), 0), (2, 0)] : List (ℚ × ℚ)).length ∧
    ∃ res, center_and_scale [((0 : ℚ), 0), (2, 0)] = .ok res ∧
      centroid res = (0, 0) ∧
      (0 < maxAbsCoord (centerPts [((0 : ℚ), 0), (2, 0)]) →
        (∃ s : ℚ, 0 < s ∧
          res = (centerPts [((0 : ℚ), 0), (2, 0)]).map (fun p => (p.1 / s, p.2 / s))) ∧
        maxAbsCoord res = 17 / 20) ∧
      ((∀ p ∈ ([((0 : ℚ), 0), (2, 0)] : List (ℚ × ℚ)),
          ∀ q ∈ ([((0 : ℚ), 0), (2, 0)] : List (ℚ × ℚ)), p = q) →
        res = centerPts [((0 : ℚ), 0), (2, 0)]) :=
 by
  constructor
  · decide
  · exact center_and_scale_spec [((0 : ℚ), 0), (2, 0)] (by decide)

/-! ## Rotation search (`best_overlap_iou` in `algorithm.py`) -/

/-- Python `range(start, stop, step)` for integer arguments and a positive
step: the arithmetic progression from `start` below `stop`. -/
def pyRange (start stop step : ℤ) : List ℤ :=
  if start < stop ∧ 0 < step then
    (List.range ((stop - start - 1).toNat / step.toNat + 1)).map
      (fun k : ℕ => start + (k : ℤ) * step)
  else []

/-- The running state of the rotation search: current best score and the
angle (in degrees) where it was attained. -/
structure SearchState where
  best_score : ℚ
  best_angle : ℤ

/-- One iteration of the coarse loop of `best_overlap_iou`: the best is
replaced only when the candidate score is strictly greater
(`if val > best_score`). -/
def coarseStep (score : ℤ → ℚ) (st : SearchState) (ang : ℤ) : SearchState :=
  if st.best_score < score ang then ⟨score ang, ang⟩ else st

/-- The coarse pass of `best_overlap_iou`: angles `range(0, 360,
coarse_step)`, starting from best score `-1e9` and best angle `0`.  The
`score` function abstracts `region_signed_score` applied to the rotated,
rasterized candidate at an integer angle in degrees. -/
def coarseSearch (score : ℤ → ℚ) (coarse_step : ℤ) : SearchState :=
  (pyRange 0 360 coarse_step).foldl (coarseStep score) ⟨-(10 ^ 9), 0⟩

/-- One iteration of the fine loop: the angle is wrapped to
`(ang + 360) % 360` both for evaluation and for recording, and the best is
again replaced only on strict improvement. -/
def fineStep (score : ℤ → ℚ) (st : SearchState) (ang : ℤ) : SearchState :=
  let w := (ang + 360) % 360
  if st.best_score < score w then ⟨score w, w⟩ else st

/-- The two-phase rotation search of `best_overlap_iou`: a coarse pass
over the full circle followed by a fine pass over
`range(best - coarse_step, best + coarse_step + 1, fine_step)`. -/
def best_overlap_search (score : ℤ → ℚ) (coarse_step fine_step : ℤ) : SearchState :=
  let c := coarseSearch score coarse_step
  (pyRange (c.best_angle - coarse_step) (c.best_angle + coarse_step + 1) fine_step).foldl
    (fineStep score) c

lemma coarseStep_best_mono (score : ℤ → ℚ) (st : SearchState) (ang : ℤ) :
    st.best_score ≤ (coarseStep score st ang).best_score := by
  unfold coarseStep
  split
  · exact le_of_lt (by assumption)
  · exact le_rfl

lemma coarseStep_best_ge_arg (score : ℤ → ℚ) (st : SearchState) (ang : ℤ) :
    score ang ≤ (coarseStep score st ang).best_score := by
  unfold coarseStep
  split
  · exact le_rfl
  · exact le_of_not_lt (by assumption)

lemma foldl_coarse_best_mono (score : ℤ → ℚ) (l : List ℤ) (st : SearchState) :
    st.best_score ≤ (l.foldl (coarseStep score) st).best_score := by
  induction l generalizing st with
  | nil => exact le_rfl
  | cons x t ih =>
    exact le_trans (coarseStep_best_mono score st x) (ih (coarseStep score st x))

lemma foldl_coarse_ge (score : ℤ → ℚ) (l : List ℤ) (st : SearchState) :
    ∀ a ∈ l, score a ≤ (l.foldl (coarseStep score) st).best_score := by
  induction l generalizing st with
  | nil => simp
  | cons x t ih =>
    intro a ha
    rcases List.mem_cons.mp ha with rfl | hat
    · exact le_trans (coarseStep_best_ge_arg score st a)
        (foldl_coarse_best_mono score t (coarseStep score st a))
    · exact ih (coarseStep score st x) a hat

lemma foldl_coarse_characterize (score : ℤ → ℚ) (l : List ℤ) (st : SearchState) :
    l.foldl (coarseStep score) st = st ∨
    ∃ a ∈ l, l.foldl (coarseStep score) st = ⟨score a, a⟩ ∧ st.best_score < score a := by
  induction l generalizing st with
  | nil => exact Or.inl rfl
  | cons x t ih =>
    rcases ih (coarseStep score st x) with hfin | ⟨b, hb, hfin, hlt⟩
    · rw [List.foldl_cons, hfin]
      unfold coarseStep
      split
      · exact Or.inr ⟨x, List.mem_cons_self x t, rfl, by assumption⟩
      · exact Or.inl rfl
    · refine Or.inr ⟨b, List.mem_cons_of_mem x hb, by rw [List.foldl_cons]; exact hfin, ?_⟩
      exact lt_of_le_of_lt (coarseStep_best_mono score st x) hlt

lemma foldl_coarse_tie_lowest (score : ℤ → ℚ) (l : List ℤ) (st : SearchState)
    (hsorted : l.Pairwise (· < ·))
    (hinit : ∀ a ∈ l, score a ≤ st.best_score → st.best_angle ≤ a) :
    ∀ a ∈ l, score a = (l.foldl (coarseStep score) st).best_score →
      (l.foldl (coarseStep score) st).best_angle ≤ a := by
  induction l generalizing st with
  | nil => simp
  | cons x t ih =>
    obtain ⟨hx_lt, hsorted_t⟩ := List.pairwise_cons.mp hsorted
    intro a ha hsc
    rw [List.foldl_cons] at hsc ⊢
    have hinit1 : ∀ b ∈ t, score b ≤ (coarseStep score st x).best_score →
        (coarseStep score st x).best_angle ≤ b := by
      intro b hb hsb
      by_cases hu : st.best_score < score x
      · rw [coarseStep, if_pos hu]
        exact le_of_lt (hx_lt b hb)
      · rw [coarseStep, if_neg hu] at hsb ⊢
        exact hinit b (List.mem_cons_of_mem x hb) hsb
    rcases List.mem_cons.mp ha with rfl | hat
    · rcases foldl_coarse_characterize score t (coarseStep score st a) with hfin | ⟨b, hb, hfin, hlt⟩
      · rw [hfin] at hsc ⊢
        by_cases hu : st.best_score < score a
        · rw [coarseStep, if_pos hu]
        · rw [coarseStep, if_neg hu] at hsc ⊢
          exact hinit a (List.mem_cons_self a t) (le_of_eq hsc)
      · have hge : score a ≤ (coarseStep score st a).best_score :=
          coarseStep_best_ge_arg score st a
        rw [hfin] at hsc
        have hsc2 : score a = score b := hsc
        exact absurd hlt (not_lt.mpr (hsc2 ▸ hge))
    · exact ih (coarseStep score st x) hsorted_t hinit1 a hat hsc

lemma foldl_fine_no_update (score : ℤ → ℚ) (l : List ℤ) (st : SearchState)
    (h : ∀ a ∈ l, score ((a + 360) % 360) ≤ st.best_score) :
    l.foldl (fineStep score) st = st := by
  induction l with
  | nil => rfl
  | cons x t ih =>
    rw [List.foldl_cons]
    have hx : fineStep score st x = st := by
      rw [fineStep]
      exact if_neg (not_lt.mpr (h x (List.mem_cons_self x t)))
    rw [hx]
    exact ih (fun a ha => h a (List.mem_cons_of_mem x ha))

lemma foldl_preserve {σ α : Type} (P : σ → Prop) (f : σ → α → σ) (l : List α)
    (hf : ∀ st a, a ∈ l → P st → P (f st a)) (st : σ) (hst : P st) :
    P (l.foldl f st) := by
  induction l generalizing st with
  | nil => exact hst
  | cons x t ih =>
    exact ih (fun s a ha hs => hf s a (List.mem_cons_of_mem x ha) hs)
      (f st x) (hf st x (List.mem_cons_self x t) hst)

lemma pyRange_sorted (start stop step : ℤ) : (pyRange start stop step).Pairwise (· < ·) := by
  unfold pyRange
  split
  · rename_i hc
    rw [List.pairwise_map]
    refine List.Pairwise.imp ?_ (List.pairwise_lt_range _)
    intro k k' hkk
    have : (k : ℤ) * step < (k' : ℤ) * step :=
      mul_lt_mul_of_pos_right (by exact_mod_cast hkk) hc.2
    omega
  · exact List.Pairwise.nil

lemma pyRange_mem_bounds (start stop step : ℤ) :
    ∀ a ∈ pyRange start stop step, start ≤ a ∧ a < stop := by
  unfold pyRange
  split
  · rename_i hc
    intro a ha
    rw [List.mem_map] at ha
    obtain ⟨k, hk, rfl⟩ := ha
    rw [List.mem_range] at hk
    have hkle : k ≤ (stop - start - 1).toNat / step.toNat := Nat.lt_succ_iff.mp hk
    have hmul : k * step.toNat ≤ (stop - start - 1).toNat :=
      (Nat.le_div_iff_mul_le (by omega)).mp hkle
    have hmulz : (k : ℤ) * step ≤ stop - start - 1 := by
      have h1 : ((k * step.toNat : ℕ) : ℤ) ≤ ((stop - start - 1).toNat : ℤ) :=
        Int.ofNat_le.mpr hmul
      push_cast at h1
      rw [Int.toNat_of_nonneg (by omega)] at h1
      rw [Int.toNat_of_nonneg (by omega)] at h1
      exact h1
    constructor
    · have : 0 ≤ (k : ℤ) * step := mul_nonneg (Int.ofNat_nonneg k) (le_of_lt hc.2)
      omega
    · omega
  · simp

lemma pyRange_head_mem (start stop step : ℤ) (h1 : start < stop) (h2 : 0 < step) :
    start ∈ pyRange start stop step := by
  unfold pyRange
  rw [if_pos ⟨h1, h2⟩]
  rw [List.mem_map]
  exact ⟨0, List.mem_range.mpr (Nat.succ_pos _), by simp⟩

/-- Claim C6: the best rotation angle returned by the two-phase search of
`best_overlap_iou` always lies in `[0, 360)`: coarse angles are drawn from
`range(0, 360, coarse_step)` and fine angles are wrapped by
`(ang + 360) % 360` before being recorded. -/
theorem best_angle_in_range (score : ℤ → ℚ) (cs fs : ℤ) (hcs : 1 ≤ cs) (hfs : 1 ≤ fs) :
    0 ≤ (best_overlap_search score cs fs).best_angle ∧
    (best_overlap_search score cs fs).best_angle < 360 := by
  have hcoarse : 0 ≤ (coarseSearch score cs).best_angle ∧
      (coarseSearch score cs).best_angle < 360 := by
    unfold coarseSearch
    refine foldl_preserve (fun st : SearchState => 0 ≤ st.best_angle ∧ st.best_angle < 360)
      _ _ ?_ _ ?_
    · intro st a ha hst
      unfold coarseStep
      split
      · exact pyRange_mem_bounds 0 360 cs a ha
      · exact hst
    · exact ⟨le_refl 0, by norm_num⟩
  unfold best_overlap_search
  refine foldl_preserve (fun st : SearchState => 0 ≤ st.best_angle ∧ st.best_angle < 360)
    _ _ ?_ _ hcoarse
  intro st a _ hst
  unfold fineStep
  simp only
  split
  · constructor
    · exact Int.emod_nonneg _ (by norm_num)
    · exact Int.emod_lt_of_pos _ (by norm_num)
  · exact hst

/-- Witness for C6 with a constant score, coarse step 5 and fine step 1. -/
theorem best_angle_in_range_witness :
    ((1 : ℤ) ≤ 5 ∧ (1 : ℤ) ≤ 1) ∧
    (0 ≤ (best_overlap_search (fun _ => 0) 5 1).best_angle ∧
      (best_overlap_search (fun _ => 0) 5 1).best_angle < 360) :=
  ⟨⟨by norm_num, le_refl 1⟩, best_angle_in_range (fun _ => 0) 5 1 (by norm_num) (le_refl 1)⟩

/-- Claim C3: the rotation search replaces the retained best only on
strict improvement: the coarse pass selects the lowest angle attaining the
maximal score (angles are visited in increasing order from 0), and a fine
angle whose wrapped score merely equals the coarse best leaves the result
of the whole search equal to the coarse result. -/
theorem rotation_search_tiebreak (score : ℤ → ℚ) (cs fs : ℤ) (hcs : 1 ≤ cs)
    (hbound : ∀ a ∈ pyRange 0 360 cs, -(10 ^ 9) < score a) :
    (coarseSearch score cs).best_angle ∈ pyRange 0 360 cs ∧
    (coarseSearch score cs).best_score = score (coarseSearch score cs).best_angle ∧
    (∀ a ∈ pyRange 0 360 cs, score a ≤ (coarseSearch score cs).best_score) ∧
    (∀ a ∈ pyRange 0 360 cs, score a = (coarseSearch score cs).best_score →
      (coarseSearch score cs).best_angle ≤ a) ∧
    ((∀ a ∈ pyRange ((coarseSearch score cs).best_angle - cs)
        ((coarseSearch score cs).best_angle + cs + 1) fs,
        score ((a + 360) % 360) ≤ (coarseSearch score cs).best_score) →
      best_overlap_search score cs fs = coarseSearch score cs) := by
  have h0mem : (0 : ℤ) ∈ pyRange 0 360 cs :=
    pyRange_head_mem 0 360 cs (by norm_num) (by omega)
  have hchar := foldl_coarse_characterize score (pyRange 0 360 cs) ⟨-(10 ^ 9), 0⟩
  have hnotinit : ¬ ((pyRange 0 360 cs).foldl (coarseStep score) ⟨-(10 ^ 9), 0⟩
      = (⟨-(10 ^ 9), 0⟩ : SearchState)) := by
    intro heq
    have hge := foldl_coarse_ge score (pyRange 0 360 cs) ⟨-(10 ^ 9), 0⟩ 0 h0mem
    rw [heq] at hge
    exact absurd (lt_of_lt_of_le (hbound 0 h0mem) hge) (lt_irrefl _)
  rcases hchar with hfin | ⟨b, hb, hfin, _⟩
  · exact absurd hfin hnotinit
  · have hcs_eq : coarseSearch score cs = ⟨score b, b⟩ := hfin
    refine ⟨?_, ?_, ?_, ?_, ?_⟩
    · rw [hcs_eq]
      exact hb
    · rw [hcs_eq]
    · intro a ha
      exact foldl_coarse_ge score (pyRange 0 360 cs) ⟨-(10 ^ 9), 0⟩ a ha
    · refine foldl_coarse_tie_lowest score (pyRange 0 360 cs) ⟨-(10 ^ 9), 0⟩
        (pyRange_sorted 0 360 cs) ?_
      intro a ha hsc
      exact absurd hsc (not_le.mpr (hbound a ha))
    · intro hno
      unfold best_overlap_search
      exact foldl_fine_no_update score _ _ hno

/-- Witness for C3 with a constant score and coarse step 5. -/
theorem rotation_search_tiebreak_witness :
    ((1 : ℤ) ≤ 5 ∧ ∀ a ∈ pyRange 0 360 5, -((10 : ℚ) ^ 9) < 0) ∧
    (∀ a ∈ pyRange 0 360 5, (0 : ℚ) = (coarseSearch (fun _ => 0) 5).best_score →
      (coarseSearch (fun _ => 0) 5).best_angle ≤ a) :=
  ⟨⟨by norm_num, fun a _ => by norm_num⟩,
    (rotation_search_tiebreak (fun _ => 0) 5 1 (by norm_num)
      (fun a _ => by norm_num)).2.2.2.1⟩

/-! ## Stroked-path rasterization (`gps_path_mask` in `algorithm.py`) -/

/-- `np.linspace(-1, 1, n)` evaluated at index `k`: the grid coordinate of
a cell center along one axis (`grid_lin`). -/
def linspace11 (n k : ℕ) : ℚ := -1 + 2 * (k : ℚ) / ((n : ℚ) - 1)

/-- Whether the grid cell with center `(x, y)` is set by one segment of
the thick polyline of `gps_path_mask`: distance from the cell center to
the segment (foot of perpendicular clamped to the segment, or the single
point when `vv <= 1e-18`) at most the stroke radius `r`.  The comparison
`sqrt(dist2) <= r` is written in the equivalent squared form
`0 <= r ∧ dist2 <= r^2`, valid because `dist2` is a sum of squares. -/
def segHit (p0 p1 : ℚ × ℚ) (r x y : ℚ) : Bool :=
  let v := (p1.1 - p0.1, p1.2 - p0.2)
  let vv := v.1 * v.1 + v.2 * v.2
  if vv ≤ 1 / 10 ^ 18 then
    decide (0 ≤ r ∧ (x - p0.1) ^ 2 + (y - p0.2) ^ 2 ≤ r ^ 2)
  else
    let t := ((x - p0.1) * v.1 + (y - p0.2) * v.2) / vv
    let tc := min (max t 0) 1
    let projx := p0.1 + tc * v.1
    let projy := p0.2 + tc * v.2
    decide (0 ≤ r ∧ (x - projx) ^ 2 + (y - projy) ^ 2 ≤ r ^ 2)

/-- The consecutive segments of a polyline, as visited by the loop
`for i in range(len(gps_norm) - 1)`. -/
def segsOf (pts : List (ℚ × ℚ)) : List ((ℚ × ℚ) × (ℚ × ℚ)) := pts.zip pts.tail

/-- `gps_path_mask` from `algorithm.py`: starting from an all-false grid,
OR in the thick-stroke contribution of each consecutive segment; the cell
at row `i`, column `j` has center `(linspace11 n j, linspace11 n i)`. -/
def gps_path_mask (pts : List (ℚ × ℚ)) (n : ℕ) (r : ℚ) : ℕ → ℕ → Bool :=
  (segsOf pts).foldl
    (fun m s => fun i j => m i j || segHit s.1 s.2 r (linspace11 n j) (linspace11 n i))
    (fun _ _ => false)

lemma gps_path_mask_foldl (pts : List ((ℚ × ℚ) × (ℚ × ℚ))) (n : ℕ) (r : ℚ)
    (m : ℕ → ℕ → Bool) (i j : ℕ) :
    (pts.foldl
      (fun m s => fun i j => m i j || segHit s.1 s.2 r (linspace11 n j) (linspace11 n i))
      m) i j = true ↔
    (m i j = true ∨ ∃ s ∈ pts, segHit s.1 s.2 r (linspace11 n j) (linspace11 n i) = true) := by
  induction pts generalizing m with
  | nil => simp
  | cons s t ih =>
    rw [List.foldl_cons, ih]
    simp only [Bool.or_eq_true, List.mem_cons]
    constructor
    · rintro ((hm | hs) | ⟨u, hu, hseg⟩)
      · exact Or.inl hm
      · exact Or.inr ⟨s, Or.inl rfl, hs⟩
      · exact Or.inr ⟨u, Or.inr hu, hseg⟩
    · rintro (hm | ⟨u, (rfl | hu), hseg⟩)
      · exact Or.inl (Or.inl hm)
      · exact Or.inl (Or.inr hseg)
      · exact Or.inr ⟨u, hu, hseg⟩

/-- Claim C9: the stroked-path mask is the union (logical OR) of the
segment contributions, and a degenerate segment whose endpoints coincide
contributes exactly the filled disk of radius `r` around its single point:
the cells whose centers lie within euclidean distance `r` of that point. -/
theorem gps_path_mask_spec (pts : List (ℚ × ℚ)) (n : ℕ) (r : ℚ) (i j : ℕ) :
    (gps_path_mask pts n r i j = true ↔
      ∃ s ∈ segsOf pts, segHit s.1 s.2 r (linspace11 n j) (linspace11 n i) = true) ∧
    (∀ s ∈ segsOf pts, s.1 = s.2 →
      (segHit s.1 s.2 r (linspace11 n j) (linspace11 n i) = true ↔
        Real.sqrt ((((linspace11 n j : ℚ) : ℝ) - ((s.1.1 : ℚ) : ℝ)) ^ 2
            + (((linspace11 n i : ℚ) : ℝ) - ((s.1.2 : ℚ) : ℝ)) ^ 2) ≤ ((r : ℚ) : ℝ))) := by
  constructor
  · rw [gps_path_mask, gps_path_mask_foldl]
    simp
  · intro s _ hdeg
    have hvv : (s.2.1 - s.1.1) * (s.2.1 - s.1.1) + (s.2.2 - s.1.2) * (s.2.2 - s.1.2)
        = 0 := by
      rw [← hdeg]
      ring
    rw [segHit]
    simp only [hvv]
    rw [if_pos (by norm_num)]
    rw [Real.sqrt_le_iff]
    rw [decide_eq_true_eq]
    constructor
    · rintro ⟨hr, hd⟩
      refine ⟨by exact_mod_cast hr, ?_⟩
      exact_mod_cast hd
    · rintro ⟨hr, hd⟩
      refine ⟨by exact_mod_cast hr, ?_⟩
      exact_mod_cast hd

/-- Witness for C9 on a concrete degenerate polyline. -/
theorem gps_path_mask_spec_witness :
    (gps_path_mask [((0 : ℚ), 0), (0, 0)] 2 (1 / 2) 0 0 = true ↔
      ∃ s ∈ segsOf [((0 : ℚ), 0), (0, 0)],
        segHit s.1 s.2 (1 / 2) (linspace11 2 0) (linspace11 2 0) = true) ∧
    (∀ s ∈ segsOf [((0 : ℚ), 0), (0, 0)], s.1 = s.2 →
      (segHit s.1 s.2 (1 / 2) (linspace11 2 0) (linspace11 2 0) = true ↔
        Real.sqrt ((((linspace11 2 0 : ℚ) : ℝ) - ((s.1.1 : ℚ) : ℝ)) ^ 2
            + (((linspace11 2 0 : ℚ) : ℝ) - ((s.1.2 : ℚ) : ℝ)) ^ 2) ≤ (((1 / 2 : ℚ) : ℚ) : ℝ))) :=
  gps_path_mask_spec [((0 : ℚ), 0), (0, 0)] 2 (1 / 2) 0 0

/-! ## Arc-length resampling (`procrustes_shape_grader.py`) -/

/-- `np.linalg.norm(q - p)`: euclidean distance between two points. -/
noncomputable def ptDist (p q : ℝ × ℝ) : ℝ :=
  Real.sqrt ((q.1 - p.1) ^ 2 + (q.2 - p.2) ^ 2)

/-- `calculate_arc_length_distances` from `procrustes_shape_grader.py`:
cumulative distances along the polyline, with a closing segment from the
last point back to the first appended; `[0]` for fewer than 2 points. -/
noncomputable def calculate_arc_length_distances (pts : List (ℝ × ℝ)) : List ℝ :=
  if pts.length < 2 then [0]
  else
    let seg_lengths := ((pts.zip pts.tail).map fun pq => ptDist pq.1 pq.2)
      ++ [ptDist (pts.getLastD (0, 0)) (pts.headD (0, 0))]
    List.scanl (· + ·) 0 seg_lengths

open Classical in
/-- `np.searchsorted(l, v)` with the default left side, on the sorted
arrays this code passes: the number of leading elements less than `v`. -/
noncomputable def searchsorted_left (l : List ℝ) (v : ℝ) : ℕ :=
  (l.takeWhile (fun x => decide (x < v))).length

open Classical in
/-- `resample_closed_by_arclength` from `procrustes_shape_grader.py`:
`np.zeros((K, 2))` for fewer than 2 points; `np.tile(points[0], (K, 1))`
when the total closed arc length is zero; otherwise linear interpolation
at the `K` target distances `np.linspace(0, total, K, endpoint=False)`. -/
noncomputable def resample_closed_by_arclength (pts : List (ℝ × ℝ)) (K : ℕ) : List (ℝ × ℝ) :=
  if pts.length < 2 then List.replicate K (0, 0)
  else
    let cum := calculate_arc_length_distances pts
    let total := cum.getLastD 0
    if total = 0 then List.replicate K (pts.headD (0, 0))
    else
      (List.range K).map (fun i : ℕ =>
        let target := total * (i : ℝ) / (K : ℝ)
        let seg := searchsorted_left cum.tail target
        let sp := if seg < pts.length - 1 then pts.getD seg (0, 0) else pts.getLastD (0, 0)
        let ep := if seg < pts.length - 1 then pts.getD (seg + 1) (0, 0) else pts.headD (0, 0)
        let sd := cum.getD seg 0
        let ed := cum.getD (seg + 1) 0
        let sl := ed - sd
        if 0 < sl then
          (sp.1 + (target - sd) / sl * (ep.1 - sp.1), sp.2 + (target - sd) / sl * (ep.2 - sp.2))
        else sp)

lemma getLastD_scanl_add_zero (l : List ℝ) (hl : ∀ s ∈ l, s = 0) (a d : ℝ) :
    ((List.scanl (· + ·) a l).getLastD d) = a := by
  induction l generalizing a d with
  | nil => rfl
  | cons s t ih =>
    rw [List.scanl_cons, List.singleton_append, List.getLastD_cons]
    have hs : s = 0 := hl s (List.mem_cons_self s t)
    have ht := ih (fun x hx => hl x (List.mem_cons_of_mem s hx))
    rw [ht (a + s) a, hs, add_zero]

lemma ptDist_self (q : ℝ × ℝ) : ptDist q q = 0 := by
  rw [ptDist]
  simp [Real.sqrt_zero]

/-- Claim C2 counterexample: a single-point input does not resample to
copies of that point; the `len(points) < 2` guard returns
`np.zeros((K, 2))`, i.e. copies of the origin instead. -/
theorem resample_single_point_counterexample :
    resample_closed_by_arclength [((3 : ℝ), 5)] 1 ≠ [((3 : ℝ), 5)] := by
  rw [resample_closed_by_arclength, if_pos (by norm_num)]
  intro h
  rw [List.replicate_succ, List.replicate_zero] at h
  have := List.head_eq_of_cons_eq h
  rw [Prod.mk.injEq] at this
  exact absurd this.1 (by norm_num)

/-- Claim C2 (amended): for at least two coinciding points the total arc
length is zero and `resample_closed_by_arclength` returns `K` copies of
that point; a single-point input instead returns `K` copies of the
origin. -/
theorem resample_degenerate_spec (pts : List (ℝ × ℝ)) (q p : ℝ × ℝ) (K : ℕ)
    (hK : 1 ≤ K) (h2 : 2 ≤ pts.length) (hall : ∀ r ∈ pts, r = q) :
    resample_closed_by_arclength pts K = List.replicate K q ∧
    resample_closed_by_arclength [p] K = List.replicate K (0, 0) := by
  constructor
  · have hlen : ¬ pts.length < 2 := not_lt.mpr h2
    have hne : pts ≠ [] := by
      intro h
      rw [h] at h2
      simp at h2
    obtain ⟨x, t, rfl⟩ := List.exists_cons_of_ne_nil hne
    have hx : x = q := hall x (List.mem_cons_self x t)
    have hseg0 : ∀ s ∈ (((x :: t).zip (x :: t).tail).map fun pq => ptDist pq.1 pq.2)
        ++ [ptDist ((x :: t).getLastD (0, 0)) ((x :: t).headD (0, 0))], s = 0 := by
      intro s hs
      rcases List.mem_append.mp hs with hs | hs
      · rw [List.mem_map] at hs
        obtain ⟨pq, hpq, rfl⟩ := hs
        have hm := List.of_mem_zip hpq
        have h1 : pq.1 = q := hall pq.1 hm.1
        have hp2 : pq.2 = q := hall pq.2 (List.mem_of_mem_tail hm.2)
        rw [h1, hp2, ptDist_self]
      · rw [List.mem_singleton] at hs
        rw [hs]
        have hlast : (x :: t).getLastD (0, 0) = q := by
          rw [List.getLastD_eq_getLast?,
              List.getLast?_eq_getLast (x :: t) (List.cons_ne_nil x t)]
          exact hall _ (List.getLast_mem (List.cons_ne_nil x t))
        have hhead : (x :: t).headD ((0 : ℝ), (0 : ℝ)) = q := by
          rw [List.headD_cons]
          exact hx
        rw [hlast, hhead, ptDist_self]
    have hcum : (calculate_arc_length_distances (x :: t)).getLastD 0 = 0 := by
      rw [calculate_arc_length_distances, if_neg hlen]
      exact getLastD_scanl_add_zero _ hseg0 0 0
    rw [resample_closed_by_arclength, if_neg hlen]
    rw [if_pos hcum]
    rw [List.headD_cons, hx]
  · rw [resample_closed_by_arclength, if_pos (by norm_num)]

/-- Witness for the amended C2 on two coinciding concrete points. -/
theorem resample_degenerate_spec_witness :
    (1 ≤ 1 ∧ 2 ≤ ([((3 : ℝ), 5), (3, 5)] : List (ℝ × ℝ)).length ∧
      (∀ r ∈ ([((3 : ℝ), 5), (3, 5)] : List (ℝ × ℝ)), r = ((3 : ℝ), (5 : ℝ)))) ∧
    (resample_closed_by_arclength [((3 : ℝ), 5), (3, 5)] 1
        = List.replicate 1 ((3 : ℝ), (5 : ℝ)) ∧
      resample_closed_by_arclength [((2 : ℝ), 1)] 1 = List.replicate 1 (0, 0)) := by
  have hall : ∀ r ∈ ([((3 : ℝ), 5), (3, 5)] : List (ℝ × ℝ)), r = ((3 : ℝ), (5 : ℝ)) := by
    intro r hr
    rcases List.mem_cons.mp hr with rfl | hr
    · rfl
    · rw [List.mem_singleton] at hr
      rw [hr]
  refine ⟨⟨le_refl 1, by norm_num, hall⟩, ?_⟩
  exact resample_degenerate_spec [((3 : ℝ), 5), (3, 5)] ((3 : ℝ), (5 : ℝ)) ((2 : ℝ), 1) 1
    (le_refl 1) (by norm_num) hall

/-! ## SVG parsing (`parse_svg_path` / `parse_svg_input` in `algorithm.py`)

The tokenizer regex of the source yields either a single command letter
(`M L C Q H V Z z`) or a numeric literal; tokens are embedded as such.
`parse_svg_input` dispatches on the results of four regex searches over a
markup fragment; those search results are embedded as the fields of
`SvgMarkup`. -/

/-- A token of the path tokenizer: a command letter or a number. -/
inductive SvgTok where
  | cmd (c : Char)
  | num (q : ℚ)
deriving DecidableEq

/-- Reading a token as a number: `float(tokens[i])` raises `ValueError`
on a command letter and `IndexError` past the end. -/
def tokNum : Option SvgTok → Except String ℚ
  | some (.num q) => .ok q
  | some (.cmd _) => .error "ValueError: could not convert string to float"
  | none => .error "IndexError: list index out of range"

/-- `np.allclose` on two points with the default tolerances
`rtol=1e-5, atol=1e-8`. -/
def allclose (p q : ℚ × ℚ) : Bool :=
  decide (|p.1 - q.1| ≤ 1 / 10 ^ 8 + 1 / 10 ^ 5 * |q.1| ∧
    |p.2 - q.2| ≤ 1 / 10 ^ 8 + 1 / 10 ^ 5 * |q.2|)

/-- `np.linspace(a, b, n)` over `ℚ` (every use here has `n ≥ 2`). -/
def linspaceQ (a b : ℚ) (n : ℕ) : List ℚ :=
  (List.range n).map (fun k => a + (b - a) * (k : ℚ) / ((n : ℚ) - 1))

/-- The `cubic` helper of `parse_svg_path`. -/
def cubicAt (p0 p1 p2 p3 : ℚ × ℚ) (t : ℚ) : ℚ × ℚ :=
  let mt := 1 - t
  (mt ^ 3 * p0.1 + 3 * mt ^ 2 * t * p1.1 + 3 * mt * t ^ 2 * p2.1 + t ^ 3 * p3.1,
   mt ^ 3 * p0.2 + 3 * mt ^ 2 * t * p1.2 + 3 * mt * t ^ 2 * p2.2 + t ^ 3 * p3.2)

/-- The `quad` helper of `parse_svg_path`. -/
def quadAt (p0 p1 p2 : ℚ × ℚ) (t : ℚ) : ℚ × ℚ :=
  let mt := 1 - t
  (mt ^ 2 * p0.1 + 2 * mt * t * p1.1 + t ^ 2 * p2.1,
   mt ^ 2 * p0.2 + 2 * mt * t * p1.2 + t ^ 2 * p2.2)

/-- The `while i < len(tokens)` loop of `parse_svg_path`: one case per
recognized command, advancing past the consumed tokens; any other token
is skipped; reading a missing or non-numeric argument is an error.  The
recursion is driven by a fuel argument instantiated with the token count
by `parseLoop`: every iteration consumes at least one token, so the fuel
never runs out. -/
def parseLoopF (fuel : ℕ) (toks : List SvgTok) (pts : List (ℚ × ℚ)) (cur start : ℚ × ℚ) :
    Except String (List (ℚ × ℚ)) :=
  match fuel with
  | 0 => .ok pts
  | fuel + 1 =>
    match toks with
    | [] => .ok pts
    | .num _ :: rest => parseLoopF fuel rest pts cur start
    | .cmd c :: rest =>
      if c = 'M' then
        match tokNum rest[0]? with
        | .error e => .error e
        | .ok v0 =>
          match tokNum rest[1]? with
          | .error e => .error e
          | .ok v1 =>
            parseLoopF fuel (rest.drop 2) (pts ++ [(v0, v1)]) (v0, v1) (v0, v1)
      else if c = 'L' then
        match tokNum rest[0]? with
        | .error e => .error e
        | .ok v0 =>
          match tokNum rest[1]? with
          | .error e => .error e
          | .ok v1 =>
            parseLoopF fuel (rest.drop 2) (pts ++ [(v0, v1)]) (v0, v1) start
      else if c = 'H' then
        match tokNum rest[0]? with
        | .error e => .error e
        | .ok v0 =>
          parseLoopF fuel (rest.drop 1) (pts ++ [(v0, cur.2)]) (v0, cur.2) start
      else if c = 'V' then
        match tokNum rest[0]? with
        | .error e => .error e
        | .ok v0 =>
          parseLoopF fuel (rest.drop 1) (pts ++ [(cur.1, v0)]) (cur.1, v0) start
      else if c = 'C' then
        match tokNum rest[0]? with
        | .error e => .error e
        | .ok v0 =>
          match tokNum rest[1]? with
          | .error e => .error e
          | .ok v1 =>
            match tokNum rest[2]? with
            | .error e => .error e
            | .ok v2 =>
              match tokNum rest[3]? with
              | .error e => .error e
              | .ok v3 =>
                match tokNum rest[4]? with
                | .error e => .error e
                | .ok v4 =>
                  match tokNum rest[5]? with
                  | .error e => .error e
                  | .ok v5 =>
                    parseLoopF fuel (rest.drop 6) (pts ++ (linspaceQ (1 / 10) 1 12).map (cubicAt cur (v0, v1) (v2, v3) (v4, v5))) (v4, v5) start
      else if c = 'Q' then
        match tokNum rest[0]? with
        | .error e => .error e
        | .ok v0 =>
          match tokNum rest[1]? with
          | .error e => .error e
          | .ok v1 =>
            match tokNum rest[2]? with
            | .error e => .error e
            | .ok v2 =>
              match tokNum rest[3]? with
              | .error e => .error e
              | .ok v3 =>
                parseLoopF fuel (rest.drop 4) (pts ++ (linspaceQ (1 / 10) 1 10).map (quadAt cur (v0, v1) (v2, v3))) (v2, v3) start
      else if c = 'Z' ∨ c = 'z' then
        if pts = [] then .error "IndexError: list index out of range"
        else if allclose (pts.headD (0, 0)) (pts.getLastD (0, 0)) then
          parseLoopF fuel rest pts cur start
        else parseLoopF fuel rest (pts ++ [pts.headD (0, 0)]) cur start
      else
        parseLoopF fuel rest pts cur start

/-- The parse loop at its adequate fuel. -/
def parseLoop (toks : List SvgTok) (pts : List (ℚ × ℚ)) (cur start : ℚ × ℚ) :
    Except String (List (ℚ × ℚ)) :=
  parseLoopF toks.length toks pts cur start

/-- `parse_svg_path` from `algorithm.py`, over the token stream: empty
token list and empty parsed output are both fatal errors. -/
def parse_svg_path (toks : List SvgTok) : Except String (List (ℚ × ℚ)) :=
  if toks = [] then .error "TARGET_SVG is empty or invalid."
  else
    match parseLoop toks [] (0, 0) (0, 0) with
    | .error e => .error e
    | .ok pts => if pts = [] then .error "Parsed SVG produced 0 points." else .ok pts

/-- `np.mean(points, axis=0)` over `ℝ`. -/
noncomputable def centroidR (pts : List (ℝ × ℝ)) : ℝ × ℝ :=
  ((pts.map Prod.fst).sum / (pts.length : ℝ), (pts.map Prod.snd).sum / (pts.length : ℝ))

/-- `center_svg_points` from `algorithm.py`: shift so the centroid sits at
the viewBox center `(12, 12)`; fewer than 2 points are returned as is. -/
noncomputable def center_svg_points (pts : List (ℝ × ℝ)) : List (ℝ × ℝ) :=
  if pts.length < 2 then pts
  else
    let c := centroidR pts
    pts.map (fun p => (p.1 + (12 - c.1), p.2 + (12 - c.2)))

/-- `np.allclose` on two real points, default tolerances. -/
def allcloseR (p q : ℝ × ℝ) : Prop :=
  |p.1 - q.1| ≤ 1 / 10 ^ 8 + 1 / 10 ^ 5 * |q.1| ∧
  |p.2 - q.2| ≤ 1 / 10 ^ 8 + 1 / 10 ^ 5 * |q.2|

open Classical in
/-- The ellipse branch of `parse_svg_input`: 256 samples of the full
turn, closed if needed, then centered. -/
noncomputable def ellipsePoints (cx cy rx ry : ℝ) : List (ℝ × ℝ) :=
  let base := (List.range 256).map (fun k : ℕ =>
    (cx + rx * Real.cos (2 * Real.pi * (k : ℝ) / 255),
     cy + ry * Real.sin (2 * Real.pi * (k : ℝ) / 255)))
  let closed := if allcloseR (base.headD (0, 0)) (base.getLastD (0, 0)) then base
    else base ++ [base.headD (0, 0)]
  center_svg_points closed

/-- The circle branch of `parse_svg_input`. -/
noncomputable def circlePoints (cx cy r : ℝ) : List (ℝ × ℝ) :=
  ellipsePoints cx cy r r

/-- The rect branch of `parse_svg_input`: the 5 corner points (closed),
then centered. -/
noncomputable def rectPoints (x y w h : ℝ) : List (ℝ × ℝ) :=
  center_svg_points [(x, y), (x + w, y), (x + w, y + h), (x, y + h), (x, y)]

/-- The outcome of the four regex searches of `parse_svg_input` over a
markup fragment: the extracted `d` attribute tokens, ellipse, circle and
rect attributes, each `none` when its search fails. -/
structure SvgMarkup where
  dAttr : Option (List SvgTok)
  ellipseAttrs : Option (ℚ × ℚ × ℚ × ℚ)
  circleAttrs : Option (ℚ × ℚ × ℚ)
  rectAttrs : Option (ℚ × ℚ × ℚ × ℚ)

/-- The input of `parse_svg_input`: markup (text starting with a `<`) or
a raw command string. -/
inductive SvgInput where
  | markup (m : SvgMarkup)
  | raw (toks : List SvgTok)

/-- Injection of parsed rational path points into the real plane. -/
noncomputable def toRealPts (pts : List (ℚ × ℚ)) : List (ℝ × ℝ) :=
  pts.map (fun p => ((p.1 : ℝ), (p.2 : ℝ)))

/-- `parse_svg_input` from `algorithm.py`: try the `d` attribute, then
ellipse, circle and rect primitives in that order; markup with none of
them is a fatal error; non-markup input goes through `parse_svg_path`. -/
noncomputable def parse_svg_input : SvgInput → Except String (List (ℝ × ℝ))
  | .raw toks => (parse_svg_path toks).map toRealPts
  | .markup m =>
    match m.dAttr with
    | some toks => (parse_svg_path toks).map toRealPts
    | none =>
      match m.ellipseAttrs with
      | some (cx, cy, rx, ry) => .ok (ellipsePoints (cx : ℝ) (cy : ℝ) (rx : ℝ) (ry : ℝ))
      | none =>
        match m.circleAttrs with
        | some (cx, cy, r) => .ok (circlePoints (cx : ℝ) (cy : ℝ) (r : ℝ))
        | none =>
          match m.rectAttrs with
          | some (x, y, w, h) => .ok (rectPoints (x : ℝ) (y : ℝ) (w : ℝ) (h : ℝ))
          | none =>
            .error "SVG did not contain a supported <path>, <ellipse>, <circle>, or <rect> element."

/-- Whether a token is one of the recognized drawing commands of
`parse_svg_path`. -/
def isRecognizedCmd : SvgTok → Bool
  | .cmd c => decide (c = 'M' ∨ c = 'L' ∨ c = 'H' ∨ c = 'V' ∨ c = 'C' ∨ c = 'Q'
      ∨ c = 'Z' ∨ c = 'z')
  | .num _ => false

lemma parseLoopF_skip (toks : List SvgTok) (hskip : ∀ t ∈ toks, isRecognizedCmd t = false) :
    ∀ fuel pts cur start, parseLoopF fuel toks pts cur start = .ok pts := by
  induction toks with
  | nil =>
    intro fuel pts cur start
    cases fuel <;> rfl
  | cons tok rest ih =>
    intro fuel pts cur start
    cases fuel with
    | zero => rfl
    | succ fuel =>
      have htok := hskip tok (List.mem_cons_self tok rest)
      have hrest := fun t ht => hskip t (List.mem_cons_of_mem tok ht)
      cases tok with
      | num q => exact ih hrest fuel pts cur start
      | cmd c =>
        rw [isRecognizedCmd] at htok
        simp only [decide_eq_false_iff_not] at htok
        push_neg at htok
        obtain ⟨h1, h2, h3, h4, h5, h6, h7, h8⟩ := htok
        show (if c = 'M' then _ else _) = _
        rw [if_neg h1, if_neg h2, if_neg h3, if_neg h4, if_neg h5, if_neg h6,
          if_neg (by simp [h7, h8] : ¬ (c = 'Z' ∨ c = 'z'))]
        exact ih hrest fuel pts cur start

lemma parseLoop_skip (toks : List SvgTok) (hskip : ∀ t ∈ toks, isRecognizedCmd t = false) :
    ∀ pts cur start, parseLoop toks pts cur start = .ok pts := by
  intro pts cur start
  exact parseLoopF_skip toks hskip toks.length pts cur start

lemma parse_svg_path_ok_ne_nil (toks : List SvgTok) (pts : List (ℚ × ℚ))
    (h : parse_svg_path toks = .ok pts) : pts ≠ [] := by
  rw [parse_svg_path] at h
  split at h
  · exact absurd h (by simp)
  · split at h
    · exact absurd h (by simp)
    · rename_i hloop
      split at h
      · exact absurd h (by simp)
      · rename_i hne
        rw [Except.ok.injEq] at h
        rw [← h]
        exact hne

/-- Claim C7: empty vector-path input, input with no recognizable drawing
commands, and markup with none of the four supported elements all fail
with an error and never produce a silent empty point list. -/
theorem parse_errors_spec :
    (∃ msg, parse_svg_path [] = .error msg) ∧
    (∀ toks : List SvgTok, toks ≠ [] → (∀ t ∈ toks, isRecognizedCmd t = false) →
      ∃ msg, parse_svg_path toks = .error msg) ∧
    (∀ m : SvgMarkup, m.dAttr = none → m.ellipseAttrs = none → m.circleAttrs = none →
      m.rectAttrs = none → ∃ msg, parse_svg_input (.markup m) = .error msg) ∧
    (∀ toks pts, parse_svg_path toks = .ok pts → pts ≠ []) := by
  refine ⟨⟨"TARGET_SVG is empty or invalid.", by rw [parse_svg_path]; simp⟩, ?_, ?_, ?_⟩
  · intro toks hne hskip
    refine ⟨"Parsed SVG produced 0 points.", ?_⟩
    rw [parse_svg_path, if_neg hne, parseLoop_skip toks hskip]
    rfl
  · intro m hd he hc hr
    refine ⟨"SVG did not contain a supported <path>, <ellipse>, <circle>, or <rect> element.", ?_⟩
    obtain ⟨d, e, c, r⟩ := m
    simp only at hd he hc hr
    rw [hd, he, hc, hr, parse_svg_input]
  · exact parse_svg_path_ok_ne_nil

/-- Witness for C7 on a concrete command-free token list and an empty
markup fragment. -/
theorem parse_errors_spec_witness :
    (([SvgTok.num 5] : List SvgTok) ≠ [] ∧
      (∀ t ∈ ([SvgTok.num 5] : List SvgTok), isRecognizedCmd t = false)) ∧
    (∃ msg, parse_svg_path [SvgTok.num 5] = .error msg) ∧
    (∃ msg, parse_svg_input (.markup ⟨none, none, none, none⟩) = .error msg) := by
  refine ⟨⟨by simp, ?_⟩, ?_, ?_⟩
  · intro t ht
    rw [List.mem_singleton] at ht
    rw [ht, isRecognizedCmd]
  · exact parse_errors_spec.2.1 [SvgTok.num 5] (by simp)
      (fun t ht => by rw [List.mem_singleton] at ht; rw [ht, isRecognizedCmd])
  · exact parse_errors_spec.2.2.1 ⟨none, none, none, none⟩ rfl rfl rfl rfl

/-! ## Procrustes shape similarity (`shape_similarity` in
`procrustes_shape_grader.py`)

The per-correspondence SVD computation of the source,
`U, S, Vt = np.linalg.svd(C); sim = trace(diag(1, sign(det(U@Vt))) @ diag(S))
= S[0] + sign(det(U@Vt))·S[1]`, is embedded through the closed form of the
singular values of a 2×2 matrix: with `F = |C|_F^2` (squared Frobenius
norm) and `d = det C`, one has `(σ1+σ2)^2 = F + 2|d|` and
`(σ1-σ2)^2 = F - 2|d|`; moreover `d = det(U@Vt)·σ1·σ2`, so
`sign(det(U@Vt))·σ2 = sign(d)·σ2` (when `d = 0` also `σ2 = 0`, so both
sides vanish). -/

/-- `np.mean` subtracted: `A - A.mean(axis=0)` over `ℝ`. -/
noncomputable def centerPtsR (pts : List (ℝ × ℝ)) : List (ℝ × ℝ) :=
  let c := centroidR pts
  pts.map (fun p => (p.1 - c.1, p.2 - c.2))

/-- `np.linalg.norm(A, 'fro')`: square root of the sum of all squared
coordinates. -/
noncomputable def frobNorm (pts : List (ℝ × ℝ)) : ℝ :=
  Real.sqrt ((pts.map (fun p => p.1 ^ 2 + p.2 ^ 2)).sum)

/-- `np.roll(l, shift := k, axis := 0)`: the last `k` rows move to the
front (`k` at most the length in every use here). -/
def rollList {α : Type} (l : List α) (k : ℕ) : List α :=
  l.drop (l.length - k) ++ l.take (l.length - k)

/-- A 2×2 real matrix `[[a, b], [c, d]]`. -/
@[ext]
structure Mat2 where
  a : ℝ
  b : ℝ
  c : ℝ
  d : ℝ

/-- `C = A.T @ Bk` for two `K×2` point arrays: the 2×2 cross-covariance
matrix. -/
noncomputable def crossCov (A B : List (ℝ × ℝ)) : Mat2 :=
  ⟨(List.zipWith (fun p q => p.1 * q.1) A B).sum,
   (List.zipWith (fun p q => p.1 * q.2) A B).sum,
   (List.zipWith (fun p q => p.2 * q.1) A B).sum,
   (List.zipWith (fun p q => p.2 * q.2) A B).sum⟩

/-- Matrix transpose on `Mat2`. -/
def transp (M : Mat2) : Mat2 := ⟨M.a, M.c, M.b, M.d⟩

/-- `np.linalg.det` of a 2×2 matrix. -/
noncomputable def det2 (M : Mat2) : ℝ := M.a * M.d - M.b * M.c

/-- Squared Frobenius norm of a 2×2 matrix. -/
noncomputable def frobSq2 (M : Mat2) : ℝ := M.a ^ 2 + M.b ^ 2 + M.c ^ 2 + M.d ^ 2

/-- `np.sign`. -/
noncomputable def npSign (x : ℝ) : ℝ := if 0 < x then 1 else if x < 0 then -1 else 0

/-- `σ1 + σ2` of a 2×2 matrix. -/
noncomputable def svSum (M : Mat2) : ℝ := Real.sqrt (frobSq2 M + 2 * |det2 M|)

/-- `σ1 - σ2` of a 2×2 matrix. -/
noncomputable def svDiff (M : Mat2) : ℝ := Real.sqrt (frobSq2 M - 2 * |det2 M|)

/-- The larger singular value `S[0]`. -/
noncomputable def sv1 (M : Mat2) : ℝ := (svSum M + svDiff M) / 2

/-- The smaller singular value `S[1]`. -/
noncomputable def sv2 (M : Mat2) : ℝ := (svSum M - svDiff M) / 2

/-- The per-correspondence similarity
`sim = np.trace(D @ np.diag(S)) = S[0] + sign(det(U@Vt))·S[1]`. -/
noncomputable def svdSim (M : Mat2) : ℝ := sv1 M + npSign (det2 M) * sv2 M

/-- The `2K` candidate similarities of the correspondence search, in loop
order: direction `+1` with all `K` cyclic shifts, then direction `-1`
(the reversed curve) with all `K` shifts. -/
noncomputable def candidateSims (A B : List (ℝ × ℝ)) (K : ℕ) : List ℝ :=
  ((List.range K).map (fun k => svdSim (crossCov A (rollList B k)))) ++
  ((List.range K).map (fun k => svdSim (crossCov A (rollList B.reverse k))))

open Classical in
/-- `shape_similarity` from `procrustes_shape_grader.py`: resample both
curves to `K` points, center and Frobenius-normalize each (0 if either
norm vanishes), take the best candidate similarity over all `2K`
correspondences (strict improvement from initial best `0.0`), and clamp
to `[0, 1]`. -/
noncomputable def shape_similarity (A_pts B_pts : List (ℝ × ℝ)) (K : ℕ) : ℝ :=
  let A0 := resample_closed_by_arclength A_pts K
  let B0 := resample_closed_by_arclength B_pts K
  let A1 := centerPtsR A0
  let B1 := centerPtsR B0
  let nA := frobNorm A1
  let nB := frobNorm B1
  if nA = 0 ∨ nB = 0 then 0
  else
    let A := A1.map (fun p => (p.1 / nA, p.2 / nA))
    let B := B1.map (fun p => (p.1 / nB, p.2 / nB))
    let best := (candidateSims A B K).foldl (fun b s => if b < s then s else b) 0
    min (max best 0) 1

lemma zipWith_sum_swap (f : (ℝ × ℝ) → (ℝ × ℝ) → ℝ) (X Y : List (ℝ × ℝ)) :
    (List.zipWith f Y X).sum = (List.zipWith (fun a b => f b a) X Y).sum := by
  rw [List.zipWith_comm f Y X]

lemma crossCov_swap (X Y : List (ℝ × ℝ)) : crossCov Y X = transp (crossCov X Y) := by
  unfold crossCov transp
  simp only [Mat2.mk.injEq]
  refine ⟨?_, ?_, ?_, ?_⟩ <;>
    · rw [zipWith_sum_swap]
      congr 1
      exact congrArg (fun h : (ℝ × ℝ) → (ℝ × ℝ) → ℝ => List.zipWith h X Y)
        (by funext a b; ring)

lemma roll_zipWith_sum (f : (ℝ × ℝ) → (ℝ × ℝ) → ℝ) (X Y : List (ℝ × ℝ))
    (h : X.length = Y.length) (m : ℕ) :
    (List.zipWith f (rollList X m) (rollList Y m)).sum = (List.zipWith f X Y).sum := by
  unfold rollList
  rw [h]
  rw [List.zipWith_append _ _ _ _ _ (by simp [h])]
  rw [List.sum_append, add_comm, ← List.sum_append,
    ← List.zipWith_append _ _ _ _ _ (by simp [h])]
  rw [List.take_append_drop, List.take_append_drop]

lemma crossCov_roll_roll (X Y : List (ℝ × ℝ)) (h : X.length = Y.length) (m : ℕ) :
    crossCov (rollList X m) (rollList Y m) = crossCov X Y := by
  unfold crossCov
  simp only [Mat2.mk.injEq]
  exact ⟨roll_zipWith_sum _ X Y h m, roll_zipWith_sum _ X Y h m,
    roll_zipWith_sum _ X Y h m, roll_zipWith_sum _ X Y h m⟩

lemma rollList_length {α : Type} (l : List α) (k : ℕ) : (rollList l k).length = l.length := by
  simp only [rollList, List.length_append, List.length_drop, List.length_take]
  omega

lemma roll_roll_cancel {α : Type} (l : List α) (k : ℕ) (hk : k ≤ l.length) :
    rollList (rollList l k) (l.length - k) = l := by
  unfold rollList
  set A := l.drop (l.length - k) with hA
  set B := l.take (l.length - k) with hB
  have hAB : (A ++ B).length = l.length := by
    simp only [hA, hB, List.length_append, List.length_drop, List.length_take]
    omega
  rw [hAB]
  have h1 : l.length - (l.length - k) = k := by omega
  rw [h1]
  have hAlen : A.length = k := by
    simp only [hA, List.length_drop]
    omega
  rw [← hAlen, List.drop_left, List.take_left]
  exact List.take_append_drop _ l

lemma crossCov_roll_left (X Y : List (ℝ × ℝ)) (k : ℕ) (h : X.length = Y.length)
    (hk : k ≤ X.length) :
    crossCov (rollList X k) Y = crossCov X (rollList Y (X.length - k)) := by
  have hl := crossCov_roll_roll (rollList X k) Y
    (by rw [rollList_length]; exact h) (X.length - k)
  rw [← hl, roll_roll_cancel X k hk]

lemma crossCov_reverse (X Y : List (ℝ × ℝ)) (h : X.length = Y.length) :
    crossCov X.reverse Y.reverse = crossCov X Y := by
  unfold crossCov
  simp only [Mat2.mk.injEq]
  refine ⟨?_, ?_, ?_, ?_⟩ <;> rw [← List.reverse_zipWith h, List.sum_reverse]

lemma rollList_reverse_comm {α : Type} (l : List α) (k : ℕ) (hk : k ≤ l.length) :
    (rollList l k).reverse = rollList l.reverse (l.length - k) := by
  unfold rollList
  rw [List.reverse_append, List.length_reverse]
  have h1 : l.length - (l.length - k) = k := by omega
  rw [h1, List.drop_reverse, List.take_reverse]

lemma svdSim_transp (M : Mat2) : svdSim (transp M) = svdSim M := by
  have hd : det2 (transp M) = det2 M := by
    unfold det2 transp
    ring
  have hf : frobSq2 (transp M) = frobSq2 M := by
    unfold frobSq2 transp
    ring
  unfold svdSim sv1 sv2 svSum svDiff npSign
  rw [hd, hf]

lemma rollList_zero {α : Type} (l : List α) : rollList l 0 = l := by
  simp [rollList]

lemma rollList_self {α : Type} (l : List α) : rollList l l.length = l := by
  simp [rollList]

lemma sim_fwd_swap (A B : List (ℝ × ℝ)) (K : ℕ) (hA : A.length = K) (hB : B.length = K)
    (k : ℕ) (hk : k < K) :
    svdSim (crossCov B (rollList A k)) = svdSim (crossCov A (rollList B ((K - k) % K))) := by
  rw [crossCov_swap (rollList A k) B, svdSim_transp]
  rw [crossCov_roll_left A B k (by rw [hA, hB]) (by omega)]
  rcases Nat.eq_zero_or_pos k with rfl | hkpos
  · have h1 : rollList B (A.length - 0) = B := by
      rw [Nat.sub_zero, hA, ← hB]
      exact rollList_self B
    have h2 : rollList B ((K - 0) % K) = B := by
      rw [Nat.sub_zero, Nat.mod_self]
      exact rollList_zero B
    rw [h1, h2]
  · have hmod : (K - k) % K = K - k := Nat.mod_eq_of_lt (by omega)
    rw [hmod, hA]

lemma sim_rev_swap (A B : List (ℝ × ℝ)) (h : A.length = B.length) (k : ℕ)
    (hk : k ≤ A.length) :
    svdSim (crossCov B (rollList A.reverse k)) = svdSim (crossCov A (rollList B.reverse k)) := by
  rw [crossCov_swap (rollList A.reverse k) B, svdSim_transp]
  have h1 : crossCov (rollList A.reverse k) B
      = crossCov A.reverse (rollList B (A.length - k)) := by
    have := crossCov_roll_left A.reverse B k (by rw [List.length_reverse]; exact h)
      (by rw [List.length_reverse]; exact hk)
    rw [List.length_reverse] at this
    exact this
  have h2 : crossCov A (rollList B.reverse k)
      = crossCov A.reverse (rollList B (A.length - k)) := by
    rw [← crossCov_reverse A (rollList B.reverse k)
      (by rw [rollList_length, List.length_reverse]; exact h)]
    congr 1
    rw [rollList_reverse_comm B.reverse k (by rw [List.length_reverse]; rw [← h]; exact hk)]
    rw [List.reverse_reverse, List.length_reverse, ← h]
  rw [h1, h2]

lemma sigma_perm (g : ℕ → ℝ) (n : ℕ) :
    ((List.range n).map (fun k => g ((n - k) % n))).Perm ((List.range n).map g) := by
  have hmm : (List.range n).map (fun k => g ((n - k) % n))
      = ((List.range n).map (fun k => (n - k) % n)).map g := by
    rw [List.map_map]
    rfl
  rw [hmm]
  refine List.Perm.map g ?_
  refine List.perm_of_nodup_nodup_toFinset_eq ?_ (List.nodup_range n) ?_
  · refine List.Nodup.map_on ?_ (List.nodup_range n)
    intro x hx y hy hxy
    rw [List.mem_range] at hx hy
    rcases Nat.eq_zero_or_pos x with rfl | hxpos
    · rcases Nat.eq_zero_or_pos y with rfl | hypos
      · rfl
      · rw [Nat.sub_zero, Nat.mod_self, Nat.mod_eq_of_lt (by omega)] at hxy
        omega
    · rcases Nat.eq_zero_or_pos y with rfl | hypos
      · rw [Nat.sub_zero, Nat.mod_self, Nat.mod_eq_of_lt (by omega)] at hxy
        omega
      · rw [Nat.mod_eq_of_lt (by omega), Nat.mod_eq_of_lt (by omega)] at hxy
        omega
  · ext m
    simp only [List.mem_toFinset, List.mem_map, List.mem_range]
    constructor
    · rintro ⟨k, hk, rfl⟩
      exact Nat.mod_lt _ (by omega)
    · intro hm
      refine ⟨(n - m) % n, Nat.mod_lt _ (by omega), ?_⟩
      rcases Nat.eq_zero_or_pos m with rfl | hmpos
      · rw [Nat.sub_zero, Nat.mod_self, Nat.sub_zero, Nat.mod_self]
      · have h1 : (n - m) % n = n - m := Nat.mod_eq_of_lt (by omega)
        rw [h1]
        have h2 : n - (n - m) = m := by omega
        rw [h2, Nat.mod_eq_of_lt hm]

lemma candidateSims_perm (A B : List (ℝ × ℝ)) (K : ℕ) (hA : A.length = K)
    (hB : B.length = K) :
    (candidateSims B A K).Perm (candidateSims A B K) := by
  unfold candidateSims
  refine List.Perm.append ?_ ?_
  · have hmap : (List.range K).map (fun k => svdSim (crossCov B (rollList A k)))
        = (List.range K).map
          (fun k => svdSim (crossCov A (rollList B ((K - k) % K)))) := by
      refine List.map_congr_left ?_
      intro k hk
      exact sim_fwd_swap A B K hA hB k (List.mem_range.mp hk)
    rw [hmap]
    exact sigma_perm (fun k => svdSim (crossCov A (rollList B k))) K
  · have hmap : (List.range K).map (fun k => svdSim (crossCov B (rollList A.reverse k)))
        = (List.range K).map (fun k => svdSim (crossCov A (rollList B.reverse k))) := by
      refine List.map_congr_left ?_
      intro k hk
      have hkK := List.mem_range.mp hk
      exact sim_rev_swap A B (by rw [hA, hB]) k (by rw [hA]; omega)
    rw [hmap]

lemma resample_length (pts : List (ℝ × ℝ)) (K : ℕ) :
    (resample_closed_by_arclength pts K).length = K := by
  rw [resample_closed_by_arclength]
  split
  · simp
  · dsimp only
    split
    · simp
    · simp

lemma centerPtsR_length (pts : List (ℝ × ℝ)) : (centerPtsR pts).length = pts.length := by
  simp [centerPtsR]

/-- Claim C10: `shape_similarity` is symmetric in its two curves: each is
resampled and normalized independently, the SVD correspondence score is
invariant under transposing the cross-covariance, and the families of
cyclic shifts and reversals induce the same candidate sets on both
sides. -/
theorem shape_similarity_symm (A_pts B_pts : List (ℝ × ℝ)) (K : ℕ) (hK : 1 ≤ K) :
    shape_similarity A_pts B_pts K = shape_similarity B_pts A_pts K := by
  unfold shape_similarity
  dsimp only
  by_cases h : frobNorm (centerPtsR (resample_closed_by_arclength A_pts K)) = 0 ∨
      frobNorm (centerPtsR (resample_closed_by_arclength B_pts K)) = 0
  · rw [if_pos h, if_pos (Or.symm h)]
  · rw [if_neg h, if_neg (fun hc => h (Or.symm hc))]
    have hstep : (fun b s : ℝ => if b < s then s else b) = (fun b s : ℝ => max b s) := by
      funext b s
      by_cases hbs : b < s
      · rw [if_pos hbs, max_eq_right (le_of_lt hbs)]
      · rw [if_neg hbs, max_eq_left (le_of_not_lt hbs)]
    rw [hstep]
    have hlenA : ((centerPtsR (resample_closed_by_arclength A_pts K)).map
        (fun p => (p.1 / frobNorm (centerPtsR (resample_closed_by_arclength A_pts K)),
          p.2 / frobNorm (centerPtsR (resample_closed_by_arclength A_pts K))))).length
        = K := by
      rw [List.length_map, centerPtsR_length, resample_length]
    have hlenB : ((centerPtsR (resample_closed_by_arclength B_pts K)).map
        (fun p => (p.1 / frobNorm (centerPtsR (resample_closed_by_arclength B_pts K)),
          p.2 / frobNorm (centerPtsR (resample_closed_by_arclength B_pts K))))).length
        = K := by
      rw [List.length_map, centerPtsR_length, resample_length]
    have hperm := candidateSims_perm _ _ K hlenA hlenB
    haveI hrc : RightCommutative (fun b s : ℝ => max b s) :=
      ⟨fun b a1 a2 => by rw [max_assoc, max_assoc, max_comm a1 a2]⟩
    rw [(List.Perm.foldl_eq hperm 0).symm]

/-- Witness for C10 on two concrete single-point curves. -/
theorem shape_similarity_symm_witness :
    1 ≤ 1 ∧ shape_similarity [((1 : ℝ), 2)] [((3 : ℝ), 4)] 1
      = shape_similarity [((3 : ℝ), 4)] [((1 : ℝ), 2)] 1 :=
  ⟨le_refl 1, shape_similarity_symm [((1 : ℝ), 2)] [((3 : ℝ), 4)] 1 (le_refl 1)⟩

example : iou [true, false] [true, true] = 1 / 2 := by
  norm_num [iou, andCount, orCount]

example : region_signed_score [true, true, true] [true, true, false] = 85 := by
  norm_num [region_signed_score]

example : region_signed_pct [true, true, true] [true, true, false] = 100 := by
  norm_num [region_signed_pct, region_signed_score, npClip, npRound1, roundHalfEven]

example : center_and_scale [((0 : ℚ), 0), (2, 0)] = .ok [(-(17 / 20), 0), (17 / 20, 0)] := by
  norm_num [center_and_scale, centerPts, centroid, maxAbsCoord]

end InShape
